import Mathlib

set_option maxRecDepth 100000
set_option maxHeartbeats 2000000

/-!
Verification of the URL risk analyzer in `src/scanner.js`.

JavaScript strings are modelled as `List Char`; the analyzer's entry point
`analyzeURL` takes a Lean `String` and works on its character list.
All definitions in the `Scanner` namespace are shallow embeddings of the
corresponding JavaScript functions and data, translated line by line.
-/

namespace Scanner

/-- Character class accepted by `String.prototype.trim` in JavaScript:
ECMAScript WhiteSpace and LineTerminator code points. -/
def isJSWhitespace (c : Char) : Bool :=
  let n := c.toNat
  n = 9 || n = 10 || n = 11 || n = 12 || n = 13 || n = 32 || n = 0xA0 ||
  n = 0x1680 || (0x2000 ≤ n && n ≤ 0x200A) || n = 0x2028 || n = 0x2029 ||
  n = 0x202F || n = 0x205F || n = 0x3000 || n = 0xFEFF

/-- Embeds `inputUrl.trim()`: remove leading and trailing whitespace. -/
def jsTrim (cs : List Char) : List Char :=
  ((cs.dropWhile isJSWhitespace).reverse.dropWhile isJSWhitespace).reverse

/-- Per-character model of `String.prototype.toLowerCase` on the ASCII
range (every input exercised by the analyzer's string comparisons is
ASCII; the Unicode-aware parts of the JavaScript builtin are not needed
by any rule, since the homoglyph rule reads the untouched `url`). -/
def jsLowerChar (c : Char) : Char :=
  if 'A' ≤ c ∧ c ≤ 'Z' then Char.ofNat (c.toNat + 32) else c

/-- Embeds `.replace(/^https?:\/\//, "")` applied to the lower-cased
string: strip one leading `https://` (the greedy `s?` branch) or
`http://`, if present. -/
def stripScheme (cs : List Char) : List Char :=
  if ("https://".data).isPrefixOf cs then cs.drop 8
  else if ("http://".data).isPrefixOf cs then cs.drop 7
  else cs

/-- Embeds `.replace(/^www\./, "")`: strip one leading `www.`. -/
def stripWww (cs : List Char) : List Char :=
  if ("www.".data).isPrefixOf cs then cs.drop 4 else cs

/-- Embeds `String.prototype.split` with a character-class separator:
`jsSplit p cs` cuts `cs` at every character satisfying `p` (the
separator characters are dropped).  Like the JavaScript builtin it
always returns at least one (possibly empty) piece. -/
def jsSplit (p : Char → Bool) : List Char → List (List Char)
  | [] => [[]]
  | c :: cs =>
    if p c then [] :: jsSplit p cs
    else
      match jsSplit p cs with
      | [] => [[c]]
      | t :: ts => (c :: t) :: ts

/-- Embeds `String.prototype.includes`: `jsIncludes needle hay` is true
iff `needle` occurs as a contiguous substring of `hay` (the empty needle
occurs everywhere, as in JavaScript). -/
def jsIncludes (needle : List Char) : List Char → Bool
  | [] => needle.isEmpty
  | c :: cs => needle.isPrefixOf (c :: cs) || jsIncludes needle cs

/-- The delimiter class `[/?#]` of `clean.split(/[/?#]/)`. -/
def isHostDelim (c : Char) : Bool := c = '/' || c = '?' || c = '#'

/-- Embeds `clean.split(/[/?#]/)[0]`: first piece of the split. -/
def hostOf (clean : List Char) : List Char :=
  (jsSplit isHostDelim clean).headD []

/-- Embeds `lower.split("=").pop()`: last piece of splitting at `=`. -/
def afterLastEq (cs : List Char) : List Char :=
  (jsSplit (fun c => c = '=') cs).getLastD []

/-- JavaScript `String.prototype.length` counts UTF-16 code units:
astral code points count twice. -/
def jsLength (cs : List Char) : Nat :=
  (cs.map (fun c => if 0x10000 ≤ c.toNat then 2 else 1)).sum

/-- Embeds `hasHomoglyphs` (src/scanner.js lines 25-27):
`/[Ѐ-ӿͰ-Ͽ]/.test(str)`. -/
def hasHomoglyphs (str : List Char) : Bool :=
  str.any (fun c =>
    (0x400 ≤ c.toNat && c.toNat ≤ 0x4FF) ||
    (0x370 ≤ c.toNat && c.toNat ≤ 0x3FF))

/-- The character class `[A-Za-z0-9+/]` of the base64-like pattern. -/
def isB64Char (c : Char) : Bool := c.isAlphanum || c = '+' || c = '/'

/-- The case-insensitive character class `[0-9A-F]` of the hex pattern. -/
def isHexChar (c : Char) : Bool :=
  c.isDigit || ('A' ≤ c && c ≤ 'F') || ('a' ≤ c && c ≤ 'f')

/-- Embeds `looksEncoded` (src/scanner.js lines 29-32):
`/^[A-Za-z0-9+/]{12,}={0,2}$/.test(str) || /^[0-9A-F]{16,}$/i.test(str)`.
Because `=` is not in the base64 class, a full match of the first regex
decomposes uniquely as the maximal base64-class prefix (≥ 12 characters)
followed by at most two `=` characters. -/
def looksEncoded (str : List Char) : Bool :=
  (decide (12 ≤ (str.takeWhile isB64Char).length) &&
    decide ((str.dropWhile isB64Char).length ≤ 2) &&
    (str.dropWhile isB64Char).all (fun c => c = '=')) ||
  (decide (16 ≤ str.length) && str.all isHexChar)

/-- Embeds `/[0-9]{3,}/.test(host)`: some three consecutive ASCII
digits occur in the string. -/
def hasDigitRun3 : List Char → Bool
  | a :: b :: c :: rest =>
    (a.isDigit && b.isDigit && c.isDigit) || hasDigitRun3 (b :: c :: rest)
  | _ => false

/-! ### The Levenshtein table of `levenshtein` (src/scanner.js lines 10-23)

The JavaScript builds a table `dp` with `dp[0][j] = j`, `dp[i][0] = i`
and
`dp[i][j] = min(dp[i-1][j] + 1, dp[i][j-1] + 1, dp[i-1][j-1] + (a[j-1] === b[i-1] ? 0 : 1))`,
filled row by row (`i` ranges over `b`, `j` over `a`), returning
`dp[b.length][a.length]`.  We model the table row by row: `fillRow`
produces the entries of row `i+1` from row `i` in one left-to-right
pass, exactly as the inner `for` loop does. -/

/-- One pass of the inner loop: `as` are the remaining characters of
`a` (columns), `ups` the remaining entries `dp[i][j], dp[i][j+1], …` of
the previous row, `diag = dp[i][j-1]` and `left = dp[i+1][j-1]`. -/
def fillRow (bc : Char) : List Char → List Nat → Nat → Nat → List Nat
  | ac :: as, up :: ups, diag, left =>
    let cur := min (up + 1) (min (left + 1) (diag + (if ac = bc then 0 else 1)))
    cur :: fillRow bc as ups up cur
  | _, _, _, _ => []

/-- Row `i+1` of the table from row `i`; `base = i+1` is `dp[i+1][0]`. -/
def nextRow (a : List Char) (bc : Char) (prev : List Nat) (base : Nat) : List Nat :=
  match prev with
  | [] => [base]
  | d :: rest => base :: fillRow bc a rest d base

/-- The outer loop over the characters of `b`; `i` is the index of the
row `prev` just computed. -/
def levLoop (a : List Char) : List Char → List Nat → Nat → List Nat
  | [], prev, _ => prev
  | bc :: bs, prev, i => levLoop a bs (nextRow a bc prev (i + 1)) (i + 1)

/-- Embeds `levenshtein(a, b)` (src/scanner.js lines 10-23): the final
table entry `dp[b.length][a.length]`. -/
def levenshtein (a b : List Char) : Nat :=
  (levLoop a b (List.range (a.length + 1)) 0).getD a.length 0

/-! ### Pattern data (src/scanner.js lines 38-76) -/

/-- `phishingClusters` (src/scanner.js lines 38-43). -/
def phishingClusters : List (List String) := [
  ["login", "verify"], ["secure", "update"], ["account", "verify"],
  ["security", "alert"], ["action", "required"], ["package", "held"],
  ["delivery", "confirm"], ["account", "locked"], ["review", "appeal"],
  ["billing", "payment"]]

/-- `highRiskBrands` (src/scanner.js lines 45-49). -/
def highRiskBrands : List String := [
  "bankofamerica", "boa", "chase", "wellsfargo",
  "instagram", "facebook", "meta", "apple", "appleid",
  "icloud", "outlook", "hotmail", "fedex", "ups", "usps", "dhl"]

/-- `autoUnsafeTLDs` (src/scanner.js lines 51-54). -/
def autoUnsafeTLDs : List String := [
  ".fake", ".invalid", ".test", ".support", ".support-login",
  ".co-login", ".security-check", ".verify-user", ".user-update"]

/-- `phishingWords` (src/scanner.js lines 56-60). -/
def phishingWords : List String := [
  "login", "verify", "secure", "update", "alert", "confirm", "required",
  "locked", "restore", "appeal", "payment", "billing", "review",
  "suspended", "disabled"]

/-- `deliveryWords` (src/scanner.js lines 62-65). -/
def deliveryWords : List String := [
  "package", "delivery", "fedex", "usps", "ups", "dhl",
  "held", "action-required", "fee", "confirm-details"]

/-- `numberMaps` (src/scanner.js lines 67-71), as `(bad, good)` pairs. -/
def numberMaps : List (String × String) := [
  ("0", "o"), ("1", "l"), ("3", "e"), ("5", "s"), ("7", "t")]

/-- `baseBrands` (src/scanner.js lines 73-76). -/
def baseBrands : List String := [
  "paypal", "google", "amazon", "apple",
  "facebook", "netflix", "chase", "microsoft"]

/-! ### The rule catalogue and the analyzer (src/scanner.js lines 82-205) -/

/-- One catalogue entry: the rule's predicate already evaluated on the
normalized forms of the current input (in the JavaScript the rules are
closures over `url`, `lower`, `host`), its weight and its message. -/
structure Rule where
  check : Bool
  score : Nat
  msg : String
deriving Repr, DecidableEq

/-- The result record of `analyzeURL`. -/
structure AnalysisResult where
  score : Nat
  safePercent : Nat
  verdict : String
  findings : List String
deriving Repr, DecidableEq

/-- The rule catalogue (src/scanner.js lines 92-187), evaluated at the
normalized forms `url` (trimmed), `lower` (trimmed and lower-cased) and
`host` of one input, in declaration order. -/
def rules (url lower host : List Char) : List Rule :=
  (autoUnsafeTLDs.map (fun tld =>
    ⟨jsIncludes tld.data host, 90, "Domain uses high-risk TLD \x27" ++ tld ++ "\x27."⟩)) ++
  [⟨decide (4 ≤ host.count '-'), 40, "Excessive hyphens indicate synthetic phishing."⟩] ++
  (highRiskBrands.map (fun brand =>
    ⟨jsIncludes brand.data host, 50, "Brand impersonation detected: \x27" ++ brand ++ "\x27."⟩)) ++
  (phishingClusters.map (fun cluster =>
    ⟨decide (2 ≤ (cluster.filter (fun w => jsIncludes w.data lower)).length), 50,
      "Phishing keyword cluster detected: " ++ String.intercalate " + " cluster⟩)) ++
  (phishingWords.map (fun word =>
    ⟨jsIncludes word.data host, 25, "Suspicious keyword detected: \x27" ++ word ++ "\x27."⟩)) ++
  [⟨hasDigitRun3 host, 25, "Suspicious numeric token detected."⟩] ++
  (deliveryWords.map (fun word =>
    ⟨jsIncludes word.data lower, 40, "Delivery scam pattern: \x27" ++ word ++ "\x27."⟩)) ++
  [⟨looksEncoded (afterLastEq lower), 40, "Encoded redirect detected."⟩] ++
  [⟨hasHomoglyphs url, 40, "Foreign homoglyph characters detected."⟩] ++
  (numberMaps.map (fun m =>
    ⟨jsIncludes m.1.data host, 45,
      "Typosquatting substitution: \x27" ++ m.1 ++ "\x27 for \x27" ++ m.2 ++ "\x27."⟩)) ++
  (baseBrands.map (fun b =>
    ⟨decide (levenshtein host b.data ≤ 2) && !(((b ++ ".com").data).isSuffixOf host), 50,
      "Domain resembles \x27" ++ b ++ "\x27 — highly suspicious."⟩)) ++
  [⟨decide (80 < jsLength url), 20, "URL is unusually long."⟩] ++
  [⟨decide (3 < host.count '.'), 25, "Excessive subdomains — common in phishing."⟩]

/-- Embeds the `rules.forEach` loop (src/scanner.js lines 190-195):
accumulated risk and findings, in catalogue order. -/
def runRules : List Rule → Nat × List String
  | [] => (0, [])
  | r :: rs =>
    let rest := runRules rs
    if r.check then (r.score + rest.1, r.msg :: rest.2) else rest

/-- `url` of `analyzeURL`: the trimmed input. -/
def normUrl (cs : List Char) : List Char := jsTrim cs

/-- `lower` of `analyzeURL`: the trimmed, lower-cased input. -/
def normLower (cs : List Char) : List Char := (jsTrim cs).map jsLowerChar

/-- `clean` of `analyzeURL`: `lower` with scheme and `www.` stripped. -/
def normClean (cs : List Char) : List Char := stripWww (stripScheme (normLower cs))

/-- `host` of `analyzeURL`: `clean.split(/[/?#]/)[0]`. -/
def normHost (cs : List Char) : List Char := hostOf (normClean cs)

/-- The rule catalogue evaluated at the normalized forms of input `s`. -/
def ruleList (s : String) : List Rule :=
  rules (normUrl s.data) (normLower s.data) (normHost s.data)

/-- The verdict cascade (src/scanner.js lines 200-202): start `SAFE`,
override with `SUSPICIOUS` when `safePercent < 80`, then with `UNSAFE`
when `safePercent < 50`. -/
def verdictOf (safePercent : Nat) : String :=
  let v1 := "SAFE"
  let v2 := if safePercent < 80 then "SUSPICIOUS" else v1
  if safePercent < 50 then "UNSAFE" else v2

/-- The accumulated `risk` after the `forEach` loop. -/
def riskOf (s : String) : Nat := (runRules (ruleList s)).1

/-- `const score = Math.min(100, risk)`. -/
def scoreOf (s : String) : Nat := min 100 (riskOf s)

/-- `const safePercent = Math.max(0, 100 - score)`; over `Nat` the
truncated subtraction `100 - score` is exactly that value, since the
score is an integer. -/
def safePercentOf (s : String) : Nat := 100 - scoreOf s

/-- The `findings` array after the `forEach` loop. -/
def findingsOf (s : String) : List String := (runRules (ruleList s)).2

/-- Embeds `analyzeURL` (src/scanner.js lines 82-205). -/
def analyzeURL (s : String) : AnalysisResult :=
  ⟨scoreOf s, safePercentOf s, verdictOf (safePercentOf s), findingsOf s⟩

/-! ### Engine-level lemmas -/

/-- The accumulated risk is the sum of the weights of the fired rules. -/
theorem runRules_fst (rs : List Rule) :
    (runRules rs).1 = ((rs.filter (fun r => r.check)).map (fun r => r.score)).sum := by
  induction rs with
  | nil => rfl
  | cons r rs ih =>
    cases hc : r.check <;> simp [runRules, List.filter_cons, hc, ih]

/-- The accumulated findings are the messages of the fired rules, in
catalogue order. -/
theorem runRules_snd (rs : List Rule) :
    (runRules rs).2 = (rs.filter (fun r => r.check)).map (fun r => r.msg) := by
  induction rs with
  | nil => rfl
  | cons r rs ih =>
    cases hc : r.check <;> simp [runRules, List.filter_cons, hc, ih]

theorem analyzeURL_score (s : String) :
    (analyzeURL s).score = min 100 (riskOf s) := rfl

theorem analyzeURL_safePercent (s : String) :
    (analyzeURL s).safePercent = 100 - (analyzeURL s).score := rfl

theorem analyzeURL_findings (s : String) :
    (analyzeURL s).findings = (runRules (ruleList s)).2 := rfl

theorem analyzeURL_verdict (s : String) :
    (analyzeURL s).verdict = verdictOf (analyzeURL s).safePercent := by
  simp only [analyzeURL]

theorem verdictOf_eq (sp : Nat) :
    verdictOf sp =
      if sp < 50 then "UNSAFE" else if sp < 80 then "SUSPICIOUS" else "SAFE" := rfl

theorem analyzeURL_score_le (s : String) : (analyzeURL s).score ≤ 100 :=
  Nat.min_le_left 100 _

/-- Every rule whose predicate holds contributes its weight to the sum
and the score is the clamped sum. -/
theorem score_eq_min_sum (s : String) :
    (analyzeURL s).score =
      min 100 (((ruleList s).filter (fun r => r.check)).map (fun r => r.score)).sum := by
  rw [analyzeURL_score]
  unfold riskOf
  rw [runRules_fst]

/-- Every rule in the catalogue has a strictly positive weight. -/
theorem rule_score_pos (u l h : List Char) (r : Rule) (hr : r ∈ rules u l h) :
    0 < r.score := by
  simp only [rules, List.mem_append, List.mem_map, List.mem_singleton] at hr
  rcases hr with
    ((((((((((((⟨x, _, rfl⟩ | rfl) | ⟨x, _, rfl⟩) | ⟨x, _, rfl⟩) | ⟨x, _, rfl⟩) |
      rfl) | ⟨x, _, rfl⟩) | rfl) | rfl) | ⟨x, _, rfl⟩) | ⟨x, _, rfl⟩) | rfl) | rfl) <;>
    simp

/-! ### Claims about the scoring engine -/

/-- Claim C1: for every string `s`, `analyzeURL s` returns
`score = min 100 (sum of the weights of all rules whose predicate is
true)`, so `0 ≤ score ≤ 100`, and `safePercent = 100 - score` exactly
(equivalently `safePercent + score = 100`). -/
theorem claim_C1 (s : String) :
    (analyzeURL s).score =
      min 100 (((ruleList s).filter (fun r => r.check)).map (fun r => r.score)).sum ∧
    (analyzeURL s).score ≤ 100 ∧
    (analyzeURL s).safePercent + (analyzeURL s).score = 100 := by
  refine ⟨score_eq_min_sum s, analyzeURL_score_le s, ?_⟩
  have h := analyzeURL_score_le s
  rw [analyzeURL_safePercent]
  omega

/-- Claim C1 witnessed at a concrete input. -/
theorem claim_C1_witness :
    (analyzeURL "http://go0gle.com").safePercent + (analyzeURL "http://go0gle.com").score
      = 100 :=
  (claim_C1 "http://go0gle.com").2.2

/-- Claim C2: the verdict is `SAFE` iff `safePercent ≥ 80`,
`SUSPICIOUS` iff `50 ≤ safePercent < 80` and `UNSAFE` iff
`safePercent < 50`; and the 85-character input of 84 `z`s and a dot
fires only the Long URL rule, giving score 20, safePercent exactly 80
and verdict `SAFE`. -/
theorem claim_C2 :
    (∀ s : String,
      ((analyzeURL s).verdict = "SAFE" ↔ 80 ≤ (analyzeURL s).safePercent) ∧
      ((analyzeURL s).verdict = "SUSPICIOUS" ↔
        50 ≤ (analyzeURL s).safePercent ∧ (analyzeURL s).safePercent < 80) ∧
      ((analyzeURL s).verdict = "UNSAFE" ↔ (analyzeURL s).safePercent < 50)) ∧
    analyzeURL (String.mk (List.replicate 84 'z' ++ ['.'])) =
      ⟨20, 80, "SAFE", ["URL is unusually long."]⟩ := by
  constructor
  · intro s
    rw [analyzeURL_verdict, verdictOf_eq]
    split_ifs with h1 h2
    · exact ⟨iff_of_false (by decide) (by omega),
        iff_of_false (by decide) (by omega), iff_of_true rfl h1⟩
    · exact ⟨iff_of_false (by decide) (by omega),
        iff_of_true rfl ⟨by omega, h2⟩, iff_of_false (by decide) (by omega)⟩
    · exact ⟨iff_of_true rfl (by omega),
        iff_of_false (by decide) (by omega), iff_of_false (by decide) (by omega)⟩
  · decide

/-- Claim C3 counterexample: on `"http://go0gle.com"` the analyzer does
not return score 95 / safePercent 5 / verdict `UNSAFE`. -/
theorem claim_C3_counterexample :
    ¬ ((analyzeURL "http://go0gle.com").score = 95 ∧
       (analyzeURL "http://go0gle.com").safePercent = 5 ∧
       (analyzeURL "http://go0gle.com").verdict = "UNSAFE") := by decide

/-- Claim C3 amended: the host computed for `"http://go0gle.com"` is
`go0gle.com` (the `.com` suffix is not removed), whose edit distance to
`google` is 5, so the brand-similarity rule does not fire; only the
digit-substitution rule for `0` fires (weight 45), giving score 45,
safePercent 55 and verdict `SUSPICIOUS`. -/
theorem claim_C3_amended :
    normHost "http://go0gle.com".data = "go0gle.com".data ∧
    levenshtein (normHost "http://go0gle.com".data) "google".data = 5 ∧
    analyzeURL "http://go0gle.com" =
      ⟨45, 55, "SUSPICIOUS", ["Typosquatting substitution: \x270\x27 for \x27o\x27."]⟩ := by
  decide

/-- Claim C5: on `"http://www.paypa1-login-secure-verify.com"` the
pre-clamp total is 170 (keywords `login`, `secure`, `verify` at 25
each, the `login`+`verify` cluster at 50 and the digit substitution `1`
at 45), the host has only 3 hyphens so the hyphen rule does not fire,
and the result is score 100, safePercent 0, verdict `UNSAFE`. -/
theorem claim_C5 :
    riskOf "http://www.paypa1-login-secure-verify.com" = 170 ∧
    (normHost "http://www.paypa1-login-secure-verify.com".data).count '-' = 3 ∧
    analyzeURL "http://www.paypa1-login-secure-verify.com" =
      ⟨100, 0, "UNSAFE",
        ["Phishing keyword cluster detected: login + verify",
         "Suspicious keyword detected: \x27login\x27.",
         "Suspicious keyword detected: \x27verify\x27.",
         "Suspicious keyword detected: \x27secure\x27.",
         "Typosquatting substitution: \x271\x27 for \x27l\x27."]⟩ := by decide

/-- Claim C6: `analyzeURL` is total over strings and always returns a
well-formed result (score and safePercent in `[0,100]` summing to 100,
verdict one of the three constants); on the empty string no rule fires
and the result is score 0, safePercent 100, verdict `SAFE`, no
findings. -/
theorem claim_C6 :
    (∀ s : String,
      (analyzeURL s).score ≤ 100 ∧ (analyzeURL s).safePercent ≤ 100 ∧
      (analyzeURL s).safePercent + (analyzeURL s).score = 100 ∧
      ((analyzeURL s).verdict = "SAFE" ∨ (analyzeURL s).verdict = "SUSPICIOUS" ∨
        (analyzeURL s).verdict = "UNSAFE")) ∧
    analyzeURL "" = ⟨0, 100, "SAFE", []⟩ := by
  constructor
  · intro s
    have h := analyzeURL_score_le s
    have h2 := analyzeURL_safePercent s
    refine ⟨h, by omega, by omega, ?_⟩
    rw [analyzeURL_verdict, verdictOf_eq]
    split_ifs <;> simp
  · decide

/-- Claim C7: the findings list contains exactly one message per fired
rule, in catalogue declaration order; its length is the number of fired
rules and at most the catalogue size. -/
theorem claim_C7 (s : String) :
    (analyzeURL s).findings =
      ((ruleList s).filter (fun r => r.check)).map (fun r => r.msg) ∧
    (analyzeURL s).findings.length =
      ((ruleList s).filter (fun r => r.check)).length ∧
    (analyzeURL s).findings.length ≤ (ruleList s).length := by
  have h : (analyzeURL s).findings =
      ((ruleList s).filter (fun r => r.check)).map (fun r => r.msg) := by
    rw [analyzeURL_findings, runRules_snd]
  refine ⟨h, ?_, ?_⟩
  · rw [h, List.length_map]
  · rw [h, List.length_map]
    exact List.length_filter_le _ _

/-- Claim C10: findings are empty iff the pre-clamp total is 0; empty
findings force score 0, safePercent 100 and verdict `SAFE`; a
non-`SAFE` verdict implies at least one finding. -/
theorem claim_C10 (s : String) :
    ((analyzeURL s).findings = [] ↔ riskOf s = 0) ∧
    ((analyzeURL s).findings = [] →
      (analyzeURL s).verdict = "SAFE" ∧ (analyzeURL s).score = 0 ∧
      (analyzeURL s).safePercent = 100) ∧
    ((analyzeURL s).verdict ≠ "SAFE" → (analyzeURL s).findings ≠ []) := by
  have hfind : (analyzeURL s).findings =
      ((ruleList s).filter (fun r => r.check)).map (fun r => r.msg) := by
    rw [analyzeURL_findings, runRules_snd]
  have hiff : (analyzeURL s).findings = [] ↔ riskOf s = 0 := by
    rw [hfind]
    unfold riskOf
    rw [runRules_fst, List.map_eq_nil_iff]
    constructor
    · intro h
      rw [h]
      rfl
    · intro h
      rcases hf : (ruleList s).filter (fun r => r.check) with _ | ⟨r, rest⟩
      · exact hf
      · exfalso
        have hr : r ∈ (ruleList s).filter (fun r => r.check) := by
          rw [hf]
          exact List.mem_cons_self _ _
        have hpos := rule_score_pos _ _ _ _ (List.mem_of_mem_filter hr)
        rw [hf, List.map_cons, List.sum_cons] at h
        omega
  have hsafe : (analyzeURL s).findings = [] →
      (analyzeURL s).verdict = "SAFE" ∧ (analyzeURL s).score = 0 ∧
      (analyzeURL s).safePercent = 100 := by
    intro h
    have hs0 : (analyzeURL s).score = 0 := by
      rw [analyzeURL_score, hiff.mp h]
      simp
    have hsp : (analyzeURL s).safePercent = 100 := by
      rw [analyzeURL_safePercent, hs0]
    refine ⟨?_, hs0, hsp⟩
    rw [analyzeURL_verdict, verdictOf_eq, hsp]
    decide
  exact ⟨hiff, hsafe, fun hv hf => hv (hsafe hf).1⟩

/-- Claim C10 witnessed at a concrete input. -/
theorem claim_C10_witness :
    ((analyzeURL "").findings = [] ↔ riskOf "" = 0) ∧
    (analyzeURL "").verdict = "SAFE" ∧ (analyzeURL "").score = 0 ∧
    (analyzeURL "").safePercent = 100 :=
  ⟨(claim_C10 "").1, (claim_C10 "").2.1 (by decide)⟩

/-! ### The split, the encoded-redirect rule, and the normalizer -/

theorem jsSplit_ne_nil (p : Char → Bool) (cs : List Char) : jsSplit p cs ≠ [] := by
  cases cs with
  | nil => simp [jsSplit]
  | cons c cs =>
    simp only [jsSplit]
    split_ifs
    · simp
    · rcases h : jsSplit p cs with _ | ⟨t, ts⟩ <;> simp [h]

/-- Splitting at a separator that never occurs returns the whole
string as the single piece. -/
theorem jsSplit_no_sep (p : Char → Bool) (cs : List Char)
    (h : ∀ c ∈ cs, p c = false) : jsSplit p cs = [cs] := by
  induction cs with
  | nil => rfl
  | cons c cs ih =>
    have hc : p c = false := h c (List.mem_cons_self c cs)
    have ih2 := ih (fun x hx => h x (List.mem_cons_of_mem c hx))
    simp [jsSplit, hc, ih2]

/-- When the lower-cased input contains no `=`, `split("=").pop()`
returns the entire input. -/
theorem afterLastEq_no_eq (cs : List Char) (h : '=' ∉ cs) : afterLastEq cs = cs := by
  unfold afterLastEq
  rw [jsSplit_no_sep]
  · rfl
  · intro c hc
    exact decide_eq_false (fun he => h (he ▸ hc))

/-- A string of at least 12 base64-class characters matches the
base64-like pattern of `looksEncoded`. -/
theorem looksEncoded_of_b64 (cs : List Char) (h12 : 12 ≤ cs.length)
    (hall : ∀ c ∈ cs, isB64Char c = true) : looksEncoded cs = true := by
  have ht : cs.takeWhile isB64Char = cs := List.takeWhile_eq_self_iff.mpr hall
  have hd : cs.dropWhile isB64Char = [] := List.dropWhile_eq_nil_iff.mpr hall
  simp [looksEncoded, ht, hd, h12]

/-- The encoded-redirect rule is in the catalogue. -/
theorem encoded_rule_mem (u l h : List Char) :
    (⟨looksEncoded (afterLastEq l), 40, "Encoded redirect detected."⟩ : Rule)
      ∈ rules u l h := by
  unfold rules
  exact List.mem_append_left _ (List.mem_append_left _ (List.mem_append_left _
    (List.mem_append_left _ (List.mem_append_left _ (List.mem_append_right _
      (List.mem_singleton_self _))))))

/-- When the encoded predicate holds, the rule fires: its message is
among the findings and its weight is part of the accumulated risk. -/
theorem encoded_msg_fires (s : String)
    (henc : looksEncoded (afterLastEq (normLower s.data)) = true) :
    "Encoded redirect detected." ∈ (analyzeURL s).findings ∧ 40 ≤ riskOf s := by
  have hmem : (⟨looksEncoded (afterLastEq (normLower s.data)), 40,
      "Encoded redirect detected."⟩ : Rule) ∈ ruleList s :=
    encoded_rule_mem _ _ _
  have hfil : (⟨looksEncoded (afterLastEq (normLower s.data)), 40,
      "Encoded redirect detected."⟩ : Rule) ∈
        (ruleList s).filter (fun r => r.check) :=
    List.mem_filter.mpr ⟨hmem, henc⟩
  constructor
  · rw [analyzeURL_findings, runRules_snd]
    exact List.mem_map_of_mem (fun r => r.msg) hfil
  · unfold riskOf
    rw [runRules_fst]
    exact List.le_sum_of_mem (List.mem_map_of_mem (fun r => r.score) hfil)

/-- Claim C9: if the trimmed, lower-cased input contains no `=`, the
encoded-redirect rule tests the entire lower-cased input; hence any
input whose trimmed, lower-cased form has at least 12 characters, all
in `[A-Za-z0-9+/]`, fires the Encoded redirect rule and adds 40 to the
accumulated risk. -/
theorem claim_C9 (s : String) :
    ('=' ∉ normLower s.data → afterLastEq (normLower s.data) = normLower s.data) ∧
    ('=' ∉ normLower s.data → 12 ≤ (normLower s.data).length →
      (∀ c ∈ normLower s.data, isB64Char c = true) →
      "Encoded redirect detected." ∈ (analyzeURL s).findings ∧ 40 ≤ riskOf s) := by
  refine ⟨fun h => afterLastEq_no_eq _ h, fun h h12 hall => ?_⟩
  apply encoded_msg_fires
  rw [afterLastEq_no_eq _ h]
  exact looksEncoded_of_b64 _ h12 hall

/-- Claim C9 witnessed at the bare 12-letter input `abcdefghijkl`. -/
theorem claim_C9_witness :
    afterLastEq (normLower "abcdefghijkl".data) = normLower "abcdefghijkl".data ∧
    "Encoded redirect detected." ∈ (analyzeURL "abcdefghijkl").findings ∧
    40 ≤ riskOf "abcdefghijkl" :=
  ⟨(claim_C9 "abcdefghijkl").1 (by decide),
   (claim_C9 "abcdefghijkl").2 (by decide) (by decide) (by decide)⟩

/-! ### The normalization pipeline (§4.1 of the specification) -/

/-- Scheme stripping as the specification words it: remove one optional
leading `http://` or `https://`, testing the alternatives in the order
the specification lists them (the source's regex tries the greedy
`https://` branch first). -/
def specStripScheme (cs : List Char) : List Char :=
  if ("http://".data).isPrefixOf cs then cs.drop 7
  else if ("https://".data).isPrefixOf cs then cs.drop 8
  else cs

/-- Host extraction as the specification words it: the prefix of the
remainder ending at the first `/`, `?` or `#` (the whole remainder when
none occurs). -/
def specHost (cs : List Char) : List Char :=
  cs.takeWhile (fun c => !isHostDelim c)

/-- The normalization pipeline as §4.1 describes it, in order: trim,
lower-case, strip one optional scheme, strip one optional `www.`,
extract the host. -/
def specNormalize (s : String) : List Char × List Char × List Char × List Char :=
  let t := jsTrim s.data
  let low := t.map jsLowerChar
  let stripped := stripWww (specStripScheme low)
  (t, low, stripped, specHost stripped)

/-- No string starts with both `http://` and `https://` (they differ at
the fifth character), so the two branches of the scheme regex are
mutually exclusive. -/
theorem not_both_schemes (cs : List Char) :
    ("https://".data).isPrefixOf cs = true →
    ("http://".data).isPrefixOf cs = true → False := by
  intro h1 h2
  rcases cs with _ | ⟨c0, _ | ⟨c1, _ | ⟨c2, _ | ⟨c3, _ | ⟨c4, rest⟩⟩⟩⟩⟩ <;>
    simp [List.isPrefixOf] at h1 h2
  obtain ⟨-, -, -, -, h4, -⟩ := h1
  obtain ⟨-, -, -, -, h5, -⟩ := h2
  rw [← h4] at h5
  exact absurd h5 (by decide)

/-- The source's scheme stripping agrees with the specification's. -/
theorem stripScheme_eq_spec (cs : List Char) : stripScheme cs = specStripScheme cs := by
  unfold stripScheme specStripScheme
  by_cases h1 : ("https://".data).isPrefixOf cs = true
  · by_cases h2 : ("http://".data).isPrefixOf cs = true
    · exact (not_both_schemes cs h1 h2).elim
    · simp [h1, h2]
  · by_cases h2 : ("http://".data).isPrefixOf cs = true
    · simp [h1, h2]
    · simp [h1, h2]

/-- The head of the split at a separator class is the longest
separator-free prefix. -/
theorem jsSplit_headD (p : Char → Bool) (cs : List Char) :
    (jsSplit p cs).headD [] = cs.takeWhile (fun c => !p c) := by
  induction cs with
  | nil => rfl
  | cons c cs ih =>
    cases hc : p c
    · rcases h : jsSplit p cs with _ | ⟨t, ts⟩
      · exact absurd h (jsSplit_ne_nil p cs)
      · rw [h] at ih
        simp only [List.headD_cons] at ih
        simp [jsSplit, hc, h, List.takeWhile_cons, ih]
    · simp [jsSplit, hc, List.takeWhile_cons]

/-- The source's `split(/[/?#]/)[0]` agrees with the specification's
take-until-delimiter description. -/
theorem hostOf_eq_spec (cs : List Char) : hostOf cs = specHost cs := by
  unfold hostOf specHost
  exact jsSplit_headD isHostDelim cs

/-! ### Edit distance: the reference recurrence and edit scripts

To settle the claim that `levenshtein` computes the minimum number of
unit-cost insertions, deletions and substitutions, we give the textbook
recurrence `dED`, characterize it as the least cost of an edit script,
and then prove that the row-by-row table of the source computes it. -/

/-- The textbook edit-distance recurrence, peeling first characters. -/
def dED : List Char → List Char → Nat
  | [], ys => ys.length
  | _ :: xs, [] => xs.length + 1
  | x :: xs, y :: ys =>
    min (dED xs (y :: ys) + 1)
      (min (dED (x :: xs) ys + 1) (dED xs ys + (if x = y then 0 else 1)))
termination_by xs ys => xs.length + ys.length
decreasing_by all_goals simp_wf <;> omega

theorem dED_nil_right (xs : List Char) : dED xs [] = xs.length := by
  cases xs <;> simp [dED]

theorem dED_nil_left (ys : List Char) : dED [] ys = ys.length := by
  simp [dED]

/-- A primitive edit-script operation: copy a character unchanged,
insert one, delete one, or substitute one for another. -/
inductive EditOp where
  | keep : Char → EditOp
  | ins : Char → EditOp
  | del : Char → EditOp
  | subst : Char → Char → EditOp
deriving DecidableEq

/-- The piece of the source string consumed by one operation. -/
def opSrc : EditOp → List Char
  | .keep c => [c]
  | .ins _ => []
  | .del c => [c]
  | .subst c _ => [c]

/-- The piece of the target string produced by one operation. -/
def opTgt : EditOp → List Char
  | .keep c => [c]
  | .ins c => [c]
  | .del _ => []
  | .subst _ d => [d]

/-- Unit cost: copying is free, every edit costs one. -/
def opCost : EditOp → Nat
  | .keep _ => 0
  | .ins _ => 1
  | .del _ => 1
  | .subst _ _ => 1

/-- The source string of an edit script. -/
def editSrc : List EditOp → List Char
  | [] => []
  | op :: s => opSrc op ++ editSrc s

/-- The target string of an edit script. -/
def editTgt : List EditOp → List Char
  | [] => []
  | op :: s => opTgt op ++ editTgt s

/-- The total cost of an edit script. -/
def editCost : List EditOp → Nat
  | [] => 0
  | op :: s => opCost op + editCost s

/-- The set of costs of edit scripts transforming `a` into `b`. -/
def scriptCosts (a b : List Char) : Set Nat :=
  {n | ∃ s : List EditOp, editSrc s = a ∧ editTgt s = b ∧ editCost s = n}

theorem dED_cons_right_le (a : List Char) (c : Char) (b : List Char) :
    dED a (c :: b) ≤ dED a b + 1 := by
  cases a with
  | nil => simp [dED]
  | cons x xs =>
    have h := min_le_right (dED xs (c :: b) + 1)
      (min (dED (x :: xs) b + 1) (dED xs b + (if x = c then 0 else 1)))
    have h2 := min_le_left (dED (x :: xs) b + 1) (dED xs b + (if x = c then 0 else 1))
    calc dED (x :: xs) (c :: b) ≤ _ := le_refl _
    _ ≤ dED (x :: xs) b + 1 := by
        rw [show dED (x :: xs) (c :: b) =
          min (dED xs (c :: b) + 1)
            (min (dED (x :: xs) b + 1) (dED xs b + (if x = c then 0 else 1)))
          from by simp [dED]]
        exact le_trans h h2

theorem dED_cons_left_le (c : Char) (a b : List Char) :
    dED (c :: a) b ≤ dED a b + 1 := by
  cases b with
  | nil => simp [dED_nil_right]
  | cons y ys =>
    rw [show dED (c :: a) (y :: ys) =
      min (dED a (y :: ys) + 1)
        (min (dED (c :: a) ys + 1) (dED a ys + (if c = y then 0 else 1)))
      from by simp [dED]]
    exact min_le_left _ _

theorem dED_subst_le (x y : Char) (a b : List Char) :
    dED (x :: a) (y :: b) ≤ dED a b + 1 := by
  rw [show dED (x :: a) (y :: b) =
    min (dED a (y :: b) + 1)
      (min (dED (x :: a) b + 1) (dED a b + (if x = y then 0 else 1)))
    from by simp [dED]]
  have h3 : dED a b + (if x = y then 0 else 1) ≤ dED a b + 1 := by
    split_ifs <;> omega
  exact le_trans (le_trans (min_le_right _ _) (min_le_right _ _)) h3

theorem dED_keep_le (c : Char) (a b : List Char) :
    dED (c :: a) (c :: b) ≤ dED a b := by
  rw [show dED (c :: a) (c :: b) =
    min (dED a (c :: b) + 1)
      (min (dED (c :: a) b + 1) (dED a b + (if c = c then 0 else 1)))
    from by simp [dED]]
  simp only [if_pos rfl, Nat.add_zero]
  exact le_trans (min_le_right _ _) (min_le_right _ _)

/-- Lower bound: the recurrence value never exceeds the cost of any
edit script between the same two strings. -/
theorem dED_le_editCost (s : List EditOp) :
    dED (editSrc s) (editTgt s) ≤ editCost s := by
  induction s with
  | nil => simp [editSrc, editTgt, editCost, dED]
  | cons op s ih =>
    cases op with
    | keep c =>
      simp only [editSrc, editTgt, editCost, opSrc, opTgt, opCost,
        List.singleton_append, Nat.zero_add]
      exact le_trans (dED_keep_le c _ _) ih
    | ins c =>
      simp only [editSrc, editTgt, editCost, opSrc, opTgt, opCost,
        List.nil_append, List.singleton_append]
      calc dED (editSrc s) (c :: editTgt s) ≤ dED (editSrc s) (editTgt s) + 1 :=
        dED_cons_right_le _ c _
      _ ≤ 1 + editCost s := by omega
    | del c =>
      simp only [editSrc, editTgt, editCost, opSrc, opTgt, opCost,
        List.nil_append, List.singleton_append]
      calc dED (c :: editSrc s) (editTgt s) ≤ dED (editSrc s) (editTgt s) + 1 :=
        dED_cons_left_le c _ _
      _ ≤ 1 + editCost s := by omega
    | subst c d =>
      simp only [editSrc, editTgt, editCost, opSrc, opTgt, opCost,
        List.singleton_append]
      calc dED (c :: editSrc s) (d :: editTgt s) ≤ dED (editSrc s) (editTgt s) + 1 :=
        dED_subst_le c d _ _
      _ ≤ 1 + editCost s := by omega

theorem editSrc_map_ins (b : List Char) : editSrc (b.map EditOp.ins) = [] := by
  induction b with
  | nil => rfl
  | cons c cs ih => simp [editSrc, opSrc, ih]

theorem editTgt_map_ins (b : List Char) : editTgt (b.map EditOp.ins) = b := by
  induction b with
  | nil => rfl
  | cons c cs ih => simp [editTgt, opTgt, ih]

theorem editCost_map_ins (b : List Char) : editCost (b.map EditOp.ins) = b.length := by
  induction b with
  | nil => rfl
  | cons c cs ih => simp [editCost, opCost, ih, Nat.add_comm]

theorem editSrc_map_del (a : List Char) : editSrc (a.map EditOp.del) = a := by
  induction a with
  | nil => rfl
  | cons c cs ih => simp [editSrc, opSrc, ih]

theorem editTgt_map_del (a : List Char) : editTgt (a.map EditOp.del) = [] := by
  induction a with
  | nil => rfl
  | cons c cs ih => simp [editTgt, opTgt, ih]

theorem editCost_map_del (a : List Char) : editCost (a.map EditOp.del) = a.length := by
  induction a with
  | nil => rfl
  | cons c cs ih => simp [editCost, opCost, ih, Nat.add_comm]

/-- Existence: some edit script from `a` to `b` costs no more than the
recurrence value. -/
theorem exists_script_le : ∀ (a b : List Char),
    ∃ s : List EditOp, editSrc s = a ∧ editTgt s = b ∧ editCost s ≤ dED a b := by
  intro a
  induction a with
  | nil =>
    intro b
    exact ⟨b.map EditOp.ins, editSrc_map_ins b, editTgt_map_ins b, by
      rw [editCost_map_ins, dED_nil_left]⟩
  | cons x xs ihx =>
    intro b
    induction b with
    | nil =>
      refine ⟨(x :: xs).map EditOp.del, editSrc_map_del _, editTgt_map_del _, ?_⟩
      rw [editCost_map_del, dED_nil_right]
    | cons y ys ihy =>
      obtain ⟨s2, hs2src, hs2tgt, hs2cost⟩ := ihy
      obtain ⟨s1, hs1src, hs1tgt, hs1cost⟩ := ihx (y :: ys)
      obtain ⟨s3, hs3src, hs3tgt, hs3cost⟩ := ihx ys
      have hd : dED (x :: xs) (y :: ys) =
          min (dED xs (y :: ys) + 1)
            (min (dED (x :: xs) ys + 1) (dED xs ys + (if x = y then 0 else 1))) := by
        simp [dED]
      rcases min_choice (dED xs (y :: ys) + 1)
        (min (dED (x :: xs) ys + 1) (dED xs ys + (if x = y then 0 else 1))) with h | h
      · refine ⟨EditOp.del x :: s1, ?_, ?_, ?_⟩
        · simp [editSrc, opSrc, hs1src]
        · simp [editTgt, opTgt, hs1tgt]
        · rw [hd, h]
          simp only [editCost, opCost]
          omega
      · rcases min_choice (dED (x :: xs) ys + 1)
          (dED xs ys + (if x = y then 0 else 1)) with h2 | h2
        · refine ⟨EditOp.ins y :: s2, ?_, ?_, ?_⟩
          · simp [editSrc, opSrc, hs2src]
          · simp [editTgt, opTgt, hs2tgt]
          · rw [hd, h, h2]
            simp only [editCost, opCost]
            omega
        · by_cases hxy : x = y
          · refine ⟨EditOp.keep x :: s3, ?_, ?_, ?_⟩
            · simp [editSrc, opSrc, hs3src]
            · simp [editTgt, opTgt, hs3tgt, hxy]
            · rw [hd, h, h2, if_pos hxy]
              simp only [editCost, opCost]
              omega
          · refine ⟨EditOp.subst x y :: s3, ?_, ?_, ?_⟩
            · simp [editSrc, opSrc, hs3src]
            · simp [editTgt, opTgt, hs3tgt]
            · rw [hd, h, h2, if_neg hxy]
              simp only [editCost, opCost]
              omega

/-- The recurrence value is the least cost of an edit script. -/
theorem dED_isLeast (a b : List Char) : IsLeast (scriptCosts a b) (dED a b) := by
  constructor
  · obtain ⟨s, hsrc, htgt, hcost⟩ := exists_script_le a b
    have hge : dED a b ≤ editCost s := by
      have h := dED_le_editCost s
      rw [hsrc, htgt] at h
      exact h
    exact ⟨s, hsrc, htgt, le_antisymm hcost hge⟩
  · rintro n ⟨s, hsrc, htgt, hcost⟩
    have h := dED_le_editCost s
    rw [hsrc, htgt, hcost] at h
    exact h

/-- Swapping source and target of one operation. -/
def flipOp : EditOp → EditOp
  | .keep c => .keep c
  | .ins c => .del c
  | .del c => .ins c
  | .subst c d => .subst d c

theorem editSrc_map_flip (s : List EditOp) : editSrc (s.map flipOp) = editTgt s := by
  induction s with
  | nil => rfl
  | cons op t ih => cases op <;> simp [editSrc, editTgt, opSrc, opTgt, flipOp, ih]

theorem editTgt_map_flip (s : List EditOp) : editTgt (s.map flipOp) = editSrc s := by
  induction s with
  | nil => rfl
  | cons op t ih => cases op <;> simp [editSrc, editTgt, opSrc, opTgt, flipOp, ih]

theorem editCost_map_flip (s : List EditOp) : editCost (s.map flipOp) = editCost s := by
  induction s with
  | nil => rfl
  | cons op t ih => cases op <;> simp [editCost, opCost, flipOp, ih]

/-- Edit scripts between `a` and `b` and between `b` and `a` have the
same costs. -/
theorem scriptCosts_symm (a b : List Char) : scriptCosts a b = scriptCosts b a := by
  ext n
  constructor
  · rintro ⟨s, hsrc, htgt, hcost⟩
    exact ⟨s.map flipOp, by rw [editSrc_map_flip, htgt], by rw [editTgt_map_flip, hsrc],
      by rw [editCost_map_flip, hcost]⟩
  · rintro ⟨s, hsrc, htgt, hcost⟩
    exact ⟨s.map flipOp, by rw [editSrc_map_flip, htgt], by rw [editTgt_map_flip, hsrc],
      by rw [editCost_map_flip, hcost]⟩

theorem dED_symm (a b : List Char) : dED a b = dED b a :=
  (dED_isLeast a b).unique (scriptCosts_symm a b ▸ dED_isLeast b a)

theorem opSrc_reverse (op : EditOp) : (opSrc op).reverse = opSrc op := by
  cases op <;> rfl

theorem opTgt_reverse (op : EditOp) : (opTgt op).reverse = opTgt op := by
  cases op <;> rfl

theorem editSrc_append (s t : List EditOp) :
    editSrc (s ++ t) = editSrc s ++ editSrc t := by
  induction s with
  | nil => rfl
  | cons op u ih => simp [editSrc, ih]

theorem editTgt_append (s t : List EditOp) :
    editTgt (s ++ t) = editTgt s ++ editTgt t := by
  induction s with
  | nil => rfl
  | cons op u ih => simp [editTgt, ih]

theorem editCost_append (s t : List EditOp) :
    editCost (s ++ t) = editCost s + editCost t := by
  induction s with
  | nil => simp [editCost]
  | cons op u ih => simp [editCost, ih, Nat.add_assoc]

theorem editSrc_reverse (s : List EditOp) :
    editSrc s.reverse = (editSrc s).reverse := by
  induction s with
  | nil => rfl
  | cons op t ih =>
    simp [editSrc, editSrc_append, ih, opSrc_reverse]

theorem editTgt_reverse (s : List EditOp) :
    editTgt s.reverse = (editTgt s).reverse := by
  induction s with
  | nil => rfl
  | cons op t ih =>
    simp [editTgt, editTgt_append, ih, opTgt_reverse]

theorem editCost_reverse (s : List EditOp) : editCost s.reverse = editCost s := by
  induction s with
  | nil => rfl
  | cons op t ih => simp [editCost, editCost_append, ih, Nat.add_comm]

/-- Reversing both strings preserves the script costs. -/
theorem scriptCosts_reverse (a b : List Char) :
    scriptCosts a b = scriptCosts a.reverse b.reverse := by
  ext n
  constructor
  · rintro ⟨s, hsrc, htgt, hcost⟩
    exact ⟨s.reverse, by rw [editSrc_reverse, hsrc], by rw [editTgt_reverse, htgt],
      by rw [editCost_reverse, hcost]⟩
  · rintro ⟨s, hsrc, htgt, hcost⟩
    refine ⟨s.reverse, ?_, ?_, by rw [editCost_reverse, hcost]⟩
    · rw [editSrc_reverse, hsrc, List.reverse_reverse]
    · rw [editTgt_reverse, htgt, List.reverse_reverse]

theorem dED_reverse (a b : List Char) : dED a b = dED a.reverse b.reverse :=
  (dED_isLeast a b).unique (scriptCosts_reverse a b ▸ dED_isLeast a.reverse b.reverse)

theorem dED_self (a : List Char) : dED a a = 0 := by
  induction a with
  | nil => simp [dED]
  | cons c cs ih =>
    have h := dED_keep_le c cs cs
    omega

/-! ### The source's table computes the recurrence

`D a b i j` is the mathematical value of the table entry `dp[i][j]`:
the edit distance between the `j`-prefix of `a` and the `i`-prefix of
`b` (reversed, so that the head-peeling recurrence `dED` compares the
same characters the table does). -/

/-- Value of the table entry `dp[i][j]`. -/
def D (a b : List Char) (i j : Nat) : Nat :=
  dED ((a.take j).reverse) ((b.take i).reverse)

theorem D_zero_left (a b : List Char) (j : Nat) (hj : j ≤ a.length) :
    D a b 0 j = j := by
  simp [D, dED_nil_right]
  omega

theorem D_zero_right (a b : List Char) (i : Nat) (hi : i ≤ b.length) :
    D a b i 0 = i := by
  simp [D, dED_nil_left]
  omega

/-- The table recurrence, in the evaluation order of the inner loop:
`dp[i+1][j+1] = min(up + 1, left + 1, diag + cost)`. -/
theorem D_succ_succ (a b : List Char) (i j : Nat) (hi : i < b.length)
    (hj : j < a.length) :
    D a b (i + 1) (j + 1) =
      min (D a b i (j + 1) + 1)
        (min (D a b (i + 1) j + 1)
          (D a b i j + (if a[j] = b[i] then 0 else 1))) := by
  have hta : a.take (j + 1) = a.take j ++ [a[j]] := by
    rw [List.take_succ, List.getElem?_eq_getElem hj]
    rfl
  have htb : b.take (i + 1) = b.take i ++ [b[i]] := by
    rw [List.take_succ, List.getElem?_eq_getElem hi]
    rfl
  unfold D
  rw [hta, htb]
  simp only [List.reverse_append, List.reverse_singleton, List.singleton_append]
  rw [show dED (a[j] :: (a.take j).reverse) (b[i] :: (b.take i).reverse) =
    min (dED ((a.take j).reverse) (b[i] :: (b.take i).reverse) + 1)
      (min (dED (a[j] :: (a.take j).reverse) ((b.take i).reverse) + 1)
        (dED ((a.take j).reverse) ((b.take i).reverse) +
          (if a[j] = b[i] then 0 else 1)))
    from by simp [dED]]
  exact min_left_comm _ _ _

/-- One inner-loop pass over the suffix `a.drop j` turns the entries
`dp[i][j+1..n]` of row `i` into the entries `dp[i+1][j+1..n]` of row
`i+1`, given the seeds `diag = dp[i][j]` and `left = dp[i+1][j]`. -/
theorem fillRow_bridge (a b : List Char) (i : Nat) (hi : i < b.length) :
    ∀ (as : List Char) (j : Nat), a.drop j = as →
      fillRow b[i] as ((List.range' (j + 1) (a.length - j)).map (fun k => D a b i k))
        (D a b i j) (D a b (i + 1) j)
      = (List.range' (j + 1) (a.length - j)).map (fun k => D a b (i + 1) k) := by
  intro as
  induction as with
  | nil =>
    intro j hj
    have hle : a.length ≤ j := by
      have := congrArg List.length hj
      simp at this
      omega
    rw [Nat.sub_eq_zero_of_le hle]
    simp [fillRow, List.range']
  | cons ac as' ih =>
    intro j hj
    have hjlt : j < a.length := by
      by_contra hge
      push_neg at hge
      rw [List.drop_eq_nil_of_le hge] at hj
      exact absurd hj (by simp)
    have hget : a[j] = ac := by
      have h0 := List.head?_drop a j
      rw [hj, List.getElem?_eq_getElem hjlt] at h0
      simp only [List.head?_cons, Option.some.injEq] at h0
      exact h0.symm
    have hdrop : a.drop (j + 1) = as' := by
      have h2 : (a.drop j).drop 1 = a.drop (j + 1) := by
        rw [List.drop_drop]
      rw [← h2, hj]
      rfl
    have hlen : a.length - j = as'.length + 1 := by
      have := congrArg List.length hj
      simp at this
      omega
    have hlen2 : a.length - (j + 1) = as'.length := by omega
    rw [hlen, List.range'_succ]
    simp only [List.map_cons]
    simp only [fillRow]
    rw [← hget]
    have hcur : min (D a b i (j + 1) + 1)
        (min (D a b (i + 1) j + 1) (D a b i j + (if a[j] = b[i] then 0 else 1)))
        = D a b (i + 1) (j + 1) :=
      (D_succ_succ a b i j hi hjlt).symm
    rw [hcur]
    have hih := ih (j + 1) hdrop
    rw [hlen2] at hih
    rw [hih]

/-- The outer loop turns row `i` into the final row `|b|`. -/
theorem levLoop_bridge (a b : List Char) :
    ∀ (bs : List Char) (i : Nat), b.drop i = bs → i ≤ b.length →
      levLoop a bs ((List.range' 0 (a.length + 1)).map (fun j => D a b i j)) i
      = (List.range' 0 (a.length + 1)).map (fun j => D a b b.length j) := by
  intro bs
  induction bs with
  | nil =>
    intro i hi hile
    have hlen : b.length ≤ i := by
      have := congrArg List.length hi
      simp at this
      omega
    have hieq : i = b.length := by omega
    rw [hieq]
    rfl
  | cons bc bs' ih =>
    intro i hi hile
    have hilt : i < b.length := by
      by_contra hge
      push_neg at hge
      rw [List.drop_eq_nil_of_le hge] at hi
      exact absurd hi (by simp)
    have hbget : b[i] = bc := by
      have h0 := List.head?_drop b i
      rw [hi, List.getElem?_eq_getElem hilt] at h0
      simp only [List.head?_cons, Option.some.injEq] at h0
      exact h0.symm
    have hbdrop : b.drop (i + 1) = bs' := by
      have h2 : (b.drop i).drop 1 = b.drop (i + 1) := by
        rw [List.drop_drop]
      rw [← h2, hi]
      rfl
    simp only [levLoop]
    rw [← hbget]
    have hrow : nextRow a b[i]
        ((List.range' 0 (a.length + 1)).map (fun j => D a b i j)) (i + 1)
        = (List.range' 0 (a.length + 1)).map (fun j => D a b (i + 1) j) := by
      rw [List.range'_succ]
      simp only [List.map_cons, Nat.zero_add]
      simp only [nextRow]
      have h0 : D a b (i + 1) 0 = i + 1 := D_zero_right a b (i + 1) (by omega)
      rw [h0]
      have hfb := fillRow_bridge a b i hilt a 0 rfl
      rw [Nat.sub_zero] at hfb
      rw [h0] at hfb
      have hd0 : D a b i 0 = i := D_zero_right a b i (by omega)
      rw [hd0] at hfb ⊢
      rw [hfb]
    rw [hrow]
    exact ih (i + 1) hbdrop (by omega)

/-- The source's `levenshtein` computes the textbook recurrence. -/
theorem levenshtein_eq_dED (a b : List Char) : levenshtein a b = dED a b := by
  unfold levenshtein
  have h0 : List.range (a.length + 1) =
      (List.range' 0 (a.length + 1)).map (fun j => D a b 0 j) := by
    rw [List.range_eq_range']
    have hmem : ∀ j ∈ List.range' 0 (a.length + 1), D a b 0 j = j := by
      intro j hj
      have hb := List.mem_range'_1.mp hj
      exact D_zero_left a b j (by omega)
    calc List.range' 0 (a.length + 1)
        = (List.range' 0 (a.length + 1)).map (fun j => j) := by simp
      _ = (List.range' 0 (a.length + 1)).map (fun j => D a b 0 j) :=
          (List.map_congr_left hmem).symm
  rw [h0, levLoop_bridge a b b 0 rfl (by omega)]
  have hlt : a.length <
      ((List.range' 0 (a.length + 1)).map (fun j => D a b b.length j)).length := by
    simp
  rw [List.getD_eq_getElem _ _ hlt]
  rw [List.getElem_map, List.getElem_range'_1]
  simp only [Nat.zero_add]
  unfold D
  rw [List.take_length, List.take_length, ← dED_reverse]

/-- Claim C4: `levenshtein a b` is the minimum number of unit-cost
insertions, deletions and substitutions transforming `a` into `b`; in
particular `levenshtein a a = 0`, `levenshtein [] b = b.length`, and
`levenshtein` is symmetric. -/
theorem claim_C4 (a b : List Char) :
    IsLeast (scriptCosts a b) (levenshtein a b) ∧
    levenshtein a a = 0 ∧
    levenshtein [] b = b.length ∧
    levenshtein a b = levenshtein b a := by
  refine ⟨?_, ?_, ?_, ?_⟩
  · rw [levenshtein_eq_dED]
    exact dED_isLeast a b
  · rw [levenshtein_eq_dED]
    exact dED_self a
  · rw [levenshtein_eq_dED]
    exact dED_nil_left b
  · rw [levenshtein_eq_dED, levenshtein_eq_dED]
    exact dED_symm a b

/-- Claim C8: for every input string the analyzer derives the
comparison forms exactly in the specification's order (trim,
lower-case, strip one optional scheme, strip one optional `www.`, host
up to the first `/`, `?` or `#`), and the normalization is a total
function that succeeds on the empty string. -/
theorem claim_C8 (s : String) :
    (normUrl s.data, normLower s.data, normClean s.data, normHost s.data) =
      specNormalize s ∧
    specNormalize "" = ([], [], [], []) := by
  constructor
  · simp only [specNormalize, normUrl, normLower, normClean, normHost,
      stripScheme_eq_spec, hostOf_eq_spec]
  · rfl

end Scanner
